import Mathlib

/-!
Shallow embedding of the analytical core of `quest/viz.py` (typogenetics).

The script reads one simulation result (production edges + pool snapshots)
and derives: a directed weighted production graph (networkx `DiGraph` built
by repeated `add_edge`, so a duplicated ordered pair overwrites the stored
weight), degree metrics used for node sizing/coloring, the list of "mutual"
edges, simple directed cycles of length at most 4 ranked by total weight,
and a top-20 + "other" pool-composition decomposition over the snapshots.

Node identifiers are strand strings in the Python code; the embedding is
generic over a type `α` with decidable equality, instantiated with `String`
or `Nat` in concrete test inputs.

`networkx.DiGraph` stores nodes and, per node, its out-edges in insertion
order (Python dicts preserve insertion order); `add_edge u v` first inserts
the endpoints as nodes (if absent) and then either updates the weight of an
existing edge `u→v` in place or appends a new edge. The `Graph` structure
below records exactly that: the node list in insertion order and the edge
list in insertion order, at most one entry per ordered pair.
-/

namespace Viz

/-- One record of `result['productionEdges']`: catalyst strand, product
strand, and an observed production count. -/
structure ProductionEdge (α : Type) where
  catalyst : α
  product : α
  count : Nat
deriving DecidableEq, Repr

/-- A networkx `DiGraph` as used by `viz.py`: node list in insertion order,
and weighted directed edges `(source, target, weight)` in insertion order,
at most one entry per ordered pair of endpoints. -/
structure Graph (α : Type) where
  nodes : List α
  edges : List (α × α × Nat)
deriving DecidableEq, Repr

variable {α : Type} [DecidableEq α]

/-- Does edge triple `e` have source `u` and target `v`? -/
def matchPair (u v : α) (e : α × α × Nat) : Bool :=
  decide (e.1 = u ∧ e.2.1 = v)

/-- networkx node insertion: append the node if it is not present yet. -/
def addNode (g : Graph α) (n : α) : Graph α :=
  if n ∈ g.nodes then g else { g with nodes := g.nodes ++ [n] }

/-- `G.add_edge(u, v, weight=w)`: insert the endpoints as nodes, then either
overwrite the weight of the existing `u→v` edge in place or append a new
edge triple. -/
def addEdge (g : Graph α) (u v : α) (w : Nat) : Graph α :=
  let g1 := addNode (addNode g u) v
  if g1.edges.any (matchPair u v) then
    { g1 with edges := g1.edges.map (fun e => if matchPair u v e then (u, v, w) else e) }
  else
    { g1 with edges := g1.edges ++ [(u, v, w)] }

/-- The graph-building loop of `render_production_graph` (viz.py lines
37-39): `for e in edges: G.add_edge(e['catalyst'], e['product'],
weight=e['count'])`. -/
def buildGraphPG (es : List (ProductionEdge α)) : Graph α :=
  es.foldl (fun g e => addEdge g e.catalyst e.product e.count) ⟨[], []⟩

/-- The identical graph-building loop of `render_cycle_analysis` (viz.py
lines 170-172). -/
def buildGraphCA (es : List (ProductionEdge α)) : Graph α :=
  es.foldl (fun g e => addEdge g e.catalyst e.product e.count) ⟨[], []⟩

/-- `G.has_edge(u, v)`. -/
def hasEdge (g : Graph α) (u v : α) : Bool :=
  g.edges.any (matchPair u v)

/-- `G[u][v]['weight']`, as an option (networkx raises on a missing edge). -/
def edgeWeight (g : Graph α) (u v : α) : Option Nat :=
  (g.edges.find? (matchPair u v)).map (fun e => e.2.2)

/-- `G[u][v]['weight']` with default 0 for a missing edge (the Python code
only evaluates it on edges that exist). -/
def weightD (g : Graph α) (u v : α) : Nat :=
  (edgeWeight g u v).getD 0

/-- networkx in-degree of a node: number of edges whose target is `n`. -/
def inDegree (g : Graph α) (n : α) : Nat :=
  (g.edges.filter (fun e => decide (e.2.1 = n))).length

/-- networkx out-degree of a node: number of edges whose source is `n`. -/
def outDegree (g : Graph α) (n : α) : Nat :=
  (g.edges.filter (fun e => decide (e.1 = n))).length

/-- networkx `G.degree()` of a node: in-degree plus out-degree (a self-loop
contributes one to each). -/
def totalDegree (g : Graph α) (n : α) : Nat :=
  inDegree g n + outDegree g n

/-- `max(degrees.values()) if degrees else 1` (viz.py line 46): the degree
dict is empty exactly when the node list is; Python `max` over the nonempty
list of naturals equals the fold of `max` from 0. -/
def maxTotalDegree (g : Graph α) : Nat :=
  if g.nodes.isEmpty then 1 else (g.nodes.map (totalDegree g)).foldl max 0

/-- `max(in_degrees.values()) if in_degrees else 1` (viz.py line 51). -/
def maxInDegree (g : Graph α) : Nat :=
  if g.nodes.isEmpty then 1 else (g.nodes.map (inDegree g)).foldl max 0

/-- The mutual-edge loop of viz.py lines 60-63: for each directed edge
`(u, v)` in edge-insertion order, record `(u, v)` whenever the reverse edge
`v→u` is also present. -/
def mutualEdges (g : Graph α) : List (α × α) :=
  (g.edges.map (fun e => (e.1, e.2.1))).filter (fun p => hasEdge g p.2 p.1)

/-- networkx adjacency: targets of the edges out of `u`, in insertion
order. -/
def successors (g : Graph α) (u : α) : List α :=
  ((g.edges.filter (fun e => decide (e.1 = u))).map (fun e => e.2.1))

/-- Modelled from the spec: viz.py calls the external library routine
`networkx.simple_cycles(G, length_bound=4)`, whose code is not part of this
repository. Its contract (spec section 4.4 / 9): a depth-first search capped
at the hop bound per start node that yields every simple directed cycle of
length between 1 and the bound exactly once, deduplicating rotations by
canonical start node. `cycleDFS g allowed s path u fuel` explores out of
`u`, where `path` is the node stack in reverse (so `path.reverse` runs from
the start node `s` to `u`), `allowed` restricts the nodes that may be
visited (canonicalisation: only nodes at or after `s` in node order), and
`fuel` bounds the remaining hops; closing back to `s` emits the cycle. -/
def cycleDFS (g : Graph α) (allowed : List α) (s : α) :
    List α → α → Nat → List (List α)
  | _, _, 0 => []
  | path, u, fuel + 1 =>
    (successors g u).flatMap (fun v =>
      if v = s then [path.reverse]
      else if v ∈ allowed ∧ v ∉ path then cycleDFS g allowed s (v :: path) v fuel
      else [])

/-- Modelled from the spec: one DFS per start node, later start nodes
restricted to the suffix of the node order so that each cycle is reported
exactly once, rooted at its earliest node. -/
def cyclesFromStarts (g : Graph α) (bound : Nat) : List α → List (List α)
  | [] => []
  | s :: rest => cycleDFS g (s :: rest) s [s] s bound ++ cyclesFromStarts g bound rest

/-- Modelled from the spec: all simple directed cycles of `g` of length
between 1 and `bound`, each exactly once (`networkx.simple_cycles` with
`length_bound`). -/
def simpleCycles (g : Graph α) (bound : Nat) : List (List α) :=
  cyclesFromStarts g bound g.nodes

/-- The cycle-weight loop of viz.py lines 180-183: `total_w` sums
`G[cycle[i]][cycle[(i+1) % len(cycle)]]['weight']` over `i`, i.e. the weight
of every consecutive edge with wrap-around, which is the sum over
`zip cycle (cycle.rotateLeft 1)`. -/
def cycleTotalWeight (g : Graph α) (c : List α) : Nat :=
  ((c.zip (c.rotateLeft 1)).map (fun p => weightD g p.1 p.2)).sum

/-- The collection loop of viz.py lines 175-184: keep the cycles of length
at least 2 found by `simple_cycles(G, length_bound=4)`, paired with their
total weight. -/
def foundCycles (g : Graph α) : List (List α × Nat) :=
  (simpleCycles g 4).filterMap (fun c =>
    if 2 ≤ c.length then some (c, cycleTotalWeight g c) else none)

/-- `cycles.sort(key=lambda x: x[1], reverse=True)` (viz.py line 188):
Python's sort is stable and, with `reverse=True`, orders by descending key
keeping discovery order among equal keys. A stable sort's output is
uniquely determined by the key preorder and the input order, so the stable
`List.insertionSort` under the relation `snd q ≤ snd p` computes exactly
it. -/
def rankedCycles (g : Graph α) : List (List α × Nat) :=
  List.insertionSort (fun p q => q.2 ≤ p.2) (foundCycles g)

/-- The cycle bundle handed to rendering: the full ranked list, the top-20
slice shown in the table (`cycles[:20]`, line 197), and the found-count
reported in the title (`len(cycles)`, line 213). -/
structure CycleBundle (α : Type) where
  ranked : List (List α × Nat)
  top : List (List α × Nat)
  foundCount : Nat
deriving DecidableEq, Repr

/-- The analytics of `render_cycle_analysis` (viz.py lines 170-214). -/
def cycleAnalysis (es : List (ProductionEdge α)) : CycleBundle α :=
  let g := buildGraphCA es
  let ranked := rankedCycles g
  { ranked := ranked, top := ranked.take 20, foundCount := ranked.length }

/-- One record of `result['snapshots']`: operation index, the pool as a
strand → count mapping (a Python dict: keys unique, insertion-ordered), the
caller-supplied pool size and unique-strand count. `poolSize` is kept as an
integer because the code subtracts strand counts from it and Python
integers go negative without clamping. -/
structure Snapshot (α : Type) where
  op : Int
  pool : List (α × Nat)
  poolSize : Int
  uniqueCount : Nat
deriving DecidableEq, Repr

/-- `snap['pool'].get(s, 0)`. -/
def poolGet (t : Snapshot α) (s : α) : Nat :=
  ((t.pool.find? (fun p => decide (p.1 = s))).map (fun p => p.2)).getD 0

/-- The contents of the Python set `all_strands` (viz.py lines 113-115):
every strand appearing in any snapshot's pool, each once. The list fixes
one enumeration; the set itself is unordered. -/
def allStrandsList (snapshots : List (Snapshot α)) : List α :=
  (snapshots.flatMap (fun t => t.pool.map (fun p => p.1))).dedup

/-- `order` is a possible iteration order of the Python set `all_strands`:
a permutation of its elements. CPython iterates a set of strings in hash
order, and string hashing is randomised per process (PYTHONHASHSEED), so
the embedding takes the iteration order as an explicit input rather than
fixing one. -/
def validOrder (snapshots : List (Snapshot α)) (order : List α) : Prop :=
  order.Perm (allStrandsList snapshots)

instance (snapshots : List (Snapshot α)) (order : List α) :
    Decidable (validOrder snapshots order) :=
  List.decidablePerm order (allStrandsList snapshots)

/-- `strand_max[s] = max(snap['pool'].get(s, 0) for snap in snapshots)`
(viz.py lines 118-120); over a nonempty snapshot list and natural counts
this equals the fold of `max` from 0. -/
def strandMax (snapshots : List (Snapshot α)) (s : α) : Nat :=
  (snapshots.map (fun t => poolGet t s)).foldl max 0

/-- The composition bundle handed to rendering (viz.py lines 112-156):
selected strands, operation axis, per-selected-strand count series, the
"other" residual series, and the pass-through pool-size / unique-count
series. -/
structure CompositionBundle (α : Type) where
  topStrands : List α
  ops : List Int
  series : List (α × List Nat)
  other : List Int
  poolSizes : List Int
  uniqueCounts : List Nat
deriving DecidableEq, Repr

/-- The analytics of `render_pool_composition` (viz.py lines 105-156):
skip (`none`) when fewer than 2 snapshots; otherwise select the top 20
strands by maximum count — Python `sorted(all_strands, key=...,
reverse=True)` is the stable descending sort of the set-iteration order
`order`, computed here by the stable `List.insertionSort` — build the
per-strand count series, and the residual
`other[i] = poolSize_i - sum of selected counts at i`. -/
def renderPoolComposition (snapshots : List (Snapshot α)) (order : List α) :
    Option (CompositionBundle α) :=
  if snapshots.length < 2 then none
  else
    let topStrands :=
      (List.insertionSort (fun a b =>
        strandMax snapshots b ≤ strandMax snapshots a) order).take 20
    let series := topStrands.map (fun s => (s, snapshots.map (fun t => poolGet t s)))
    let other := snapshots.enum.map (fun p =>
      p.2.poolSize - ((series.map (fun q => ((q.2.getD p.1 0 : Nat) : Int))).sum))
    some { topStrands := topStrands
           ops := snapshots.map (fun t => t.op)
           series := series
           other := other
           poolSizes := snapshots.map (fun t => t.poolSize)
           uniqueCounts := snapshots.map (fun t => t.uniqueCount) }

/-- The graph bundle handed to rendering by `render_production_graph`
(viz.py lines 37-63): the graph itself, the degree data used for sizing and
coloring together with the normalising maxima (the script divides by these
as floats; the integer data here determines those ratios), and the mutual
edge list. -/
structure GraphBundle (α : Type) where
  graph : Graph α
  totalDegrees : List (α × Nat)
  maxTotalDeg : Nat
  inDegrees : List (α × Nat)
  maxInDeg : Nat
  mutualList : List (α × α)
deriving DecidableEq, Repr

/-- The analytics of `render_production_graph` (viz.py lines 30-63): skip
(`none`) when there are no production edges. -/
def renderProductionGraph (es : List (ProductionEdge α)) :
    Option (GraphBundle α) :=
  if es.isEmpty then none
  else
    let g := buildGraphPG es
    some { graph := g
           totalDegrees := g.nodes.map (fun n => (n, totalDegree g n))
           maxTotalDeg := maxTotalDegree g
           inDegrees := g.nodes.map (fun n => (n, inDegree g n))
           maxInDeg := maxInDegree g
           mutualList := mutualEdges g }

/-- `result`: the simulation record fields the analytical core reads. -/
structure SimulationResult (α : Type) where
  productionEdges : List (ProductionEdge α)
  snapshots : List (Snapshot α)
deriving DecidableEq, Repr

/-- The three output bundles of one `process` run (viz.py lines 222-228);
the cycle bundle is also skipped when there are no edges (early return at
line 167-168). -/
structure OutputBundles (α : Type) where
  graph : Option (GraphBundle α)
  composition : Option (CompositionBundle α)
  cycles : Option (CycleBundle α)
deriving DecidableEq, Repr

/-- The full analytical pipeline on one simulation result, parameterised by
the iteration order of the `all_strands` set (see `validOrder`). -/
def pipeline (r : SimulationResult α) (order : List α) : OutputBundles α :=
  { graph := renderProductionGraph r.productionEdges
    composition := renderPoolComposition r.snapshots order
    cycles := if r.productionEdges.isEmpty then none
              else some (cycleAnalysis r.productionEdges) }

/-- Does production-edge record `pe` have catalyst `u` and product `v`? -/
def matchPE (u v : α) (pe : ProductionEdge α) : Bool :=
  decide (pe.catalyst = u ∧ pe.product = v)

/-- Concrete inputs used to instantiate the claims. `exC2` is the overwrite
example `[(A,B,3), (A,B,7)]`; `ringEdges` is the 3-node ring `A→B→C→A` with
weights 1,2,3; `exC3Edges` has one mutual pair and one self-loop;
`starEdges` is a hub joined in both directions to 21 spokes (21 two-cycles,
all of weight 2); `exSnaps` is the composition example of spec section 8;
`tieSnaps` holds 21 strands all of maximum count 1 across two snapshots, so
the top-20 cut depends on the tie-break. -/
def exC2 : List (ProductionEdge String) := [⟨"A", "B", 3⟩, ⟨"A", "B", 7⟩]

def ringEdges : List (ProductionEdge String) :=
  [⟨"A", "B", 1⟩, ⟨"B", "C", 2⟩, ⟨"C", "A", 3⟩]

def exC3Edges : List (ProductionEdge String) :=
  [⟨"A", "B", 1⟩, ⟨"B", "A", 1⟩, ⟨"C", "C", 1⟩]

def starEdges : List (ProductionEdge Nat) :=
  (List.range 21).flatMap (fun k => [⟨100, k, 1⟩, ⟨k, 100, 1⟩])

def exSnaps : List (Snapshot String) :=
  [⟨0, [("X", 5)], 5, 1⟩, ⟨1, [("X", 3), ("Y", 2)], 5, 2⟩]

def tieSnaps : List (Snapshot Nat) :=
  [⟨0, (List.range 21).map (fun k => (k, 1)), 21, 21⟩,
   ⟨1, (List.range 21).map (fun k => (k, 1)), 21, 21⟩]

def tieResult : SimulationResult Nat := ⟨[], tieSnaps⟩

def tieOrder1 : List Nat := List.range 21

def tieOrder2 : List Nat := (List.range 21).reverse

/-- The empty composition bundle, used only as a `getD` default below. -/
def emptyBundle (α : Type) : CompositionBundle α := ⟨[], [], [], [], [], []⟩

/-- The composition bundle computed for `exSnaps` under iteration order
`[X, Y]`. -/
def exBundle : CompositionBundle String :=
  (renderPoolComposition exSnaps ["X", "Y"]).getD (emptyBundle String)

/-- The composition bundles computed for `tieSnaps` under the two
iteration orders. -/
def tieBundle1 : CompositionBundle Nat :=
  (renderPoolComposition tieSnaps tieOrder1).getD (emptyBundle Nat)

def tieBundle2 : CompositionBundle Nat :=
  (renderPoolComposition tieSnaps tieOrder2).getD (emptyBundle Nat)

/-- Is every consecutive pair of `c` an edge of `g`? -/
def chainB (g : Graph α) : List α → Bool
  | [] => true
  | [_] => true
  | u :: v :: rest => hasEdge g u v && chainB g (v :: rest)

/-- Does the closing edge, from the last node of `c` back to its first,
exist in `g`? (False on the empty list.) -/
def closesB (g : Graph α) (c : List α) : Bool :=
  match c.head?, c.getLast? with
  | some a, some z => hasEdge g z a
  | _, _ => false

/-- `c` is a simple directed cycle of `g`: every consecutive edge exists,
the closing edge exists, and no node repeats. -/
def isCycle (g : Graph α) (c : List α) : Prop :=
  chainB g c = true ∧ closesB g c = true ∧ c.Nodup

/-- Spec-side weight: sum of the weights of every consecutive edge of the
node sequence, the last node closing back to `first`. -/
def consecWeights (g : Graph α) (first : α) : List α → Nat
  | [] => 0
  | [x] => weightD g x first
  | x :: y :: rest => weightD g x y + consecWeights g first (y :: rest)

/-- Spec-side total weight of a cycle, written as the spec phrases it: the
sum of the graph edge weights of every consecutive edge along the cycle
including the closing edge from the last node back to the first. -/
def cycleWeightSpec (g : Graph α) : List α → Nat
  | [] => 0
  | a :: t => consecWeights g a (a :: t)

/-- Every edge endpoint of the graph is among its nodes. -/
def edgesNodesOk (g : Graph α) : Prop :=
  ∀ e ∈ g.edges, e.1 ∈ g.nodes ∧ e.2.1 ∈ g.nodes

/-- Every node of the graph is an endpoint of at least one edge (nodes are
only ever inserted by `add_edge`, and overwriting keeps the endpoint
pair). -/
def nodesEdgeOk (g : Graph α) : Prop :=
  ∀ n ∈ g.nodes, ∃ e ∈ g.edges, e.1 = n ∨ e.2.1 = n

/-! ### Basic facts about `addNode` and `addEdge` -/

theorem addNode_edges (g : Graph α) (n : α) : (addNode g n).edges = g.edges := by
  unfold addNode; split <;> rfl

theorem addNode_mem_iff (g : Graph α) (n m : α) :
    m ∈ (addNode g n).nodes ↔ m ∈ g.nodes ∨ m = n := by
  unfold addNode
  by_cases h : n ∈ g.nodes
  · simp only [if_pos h]
    constructor
    · exact Or.inl
    · rintro (hm | rfl)
      · exact hm
      · exact h
  · simp [if_neg h, List.mem_append]

theorem addEdge_edges (g : Graph α) (u v : α) (w : Nat) :
    (addEdge g u v w).edges =
      if g.edges.any (matchPair u v) then
        g.edges.map (fun e => if matchPair u v e then (u, v, w) else e)
      else g.edges ++ [(u, v, w)] := by
  unfold addEdge
  simp only [addNode_edges]
  split <;> rfl

theorem addEdge_mem_nodes_iff (g : Graph α) (u v : α) (w : Nat) (m : α) :
    m ∈ (addEdge g u v w).nodes ↔ m ∈ g.nodes ∨ m = u ∨ m = v := by
  unfold addEdge
  simp only [addNode_edges]
  split <;> simp only [addNode_mem_iff] <;> tauto

theorem matchPair_self (u v : α) (w : Nat) : matchPair u v (u, v, w) = true := by
  simp [matchPair]

theorem matchPair_update_eq (u v u' v' : α) (w : Nat) (e : α × α × Nat) :
    matchPair u' v' (if matchPair u v e then (u, v, w) else e) = matchPair u' v' e := by
  by_cases h : matchPair u v e = true
  · simp only [if_pos h]
    simp only [matchPair, decide_eq_true_eq] at h ⊢
    obtain ⟨h1, h2⟩ := h
    simp [h1, h2]
  · simp [if_neg h]

theorem addEdge_countP (g : Graph α) (u v u' v' : α) (w : Nat) :
    (addEdge g u v w).edges.countP (matchPair u' v') =
      if u = u' ∧ v = v' then
        (if hasEdge g u v then g.edges.countP (matchPair u' v') else
          g.edges.countP (matchPair u' v') + 1)
      else g.edges.countP (matchPair u' v') := by
  rw [addEdge_edges]
  by_cases hmem : g.edges.any (matchPair u v) = true
  · rw [if_pos hmem]
    have hc : (g.edges.map (fun e => if matchPair u v e then (u, v, w) else e)).countP
        (matchPair u' v') = g.edges.countP (matchPair u' v') := by
      rw [List.countP_map]
      exact List.countP_congr (fun e _ => by
        simp only [Function.comp_apply, matchPair_update_eq])
    rw [hc]
    simp [hasEdge, hmem]
  · rw [if_neg hmem, List.countP_append]
    by_cases hp : u = u' ∧ v = v'
    · obtain ⟨rfl, rfl⟩ := hp
      rw [if_pos ⟨rfl, rfl⟩, hasEdge, if_neg hmem]
      simp [List.countP, List.countP.go, matchPair_self]
    · rw [if_neg hp]
      have : matchPair u' v' (u, v, w) = false := by
        simp only [matchPair, decide_eq_false_iff_not]
        rintro ⟨rfl, rfl⟩
        exact hp ⟨rfl, rfl⟩
      simp [List.countP, List.countP.go, this]

theorem addEdge_edgeWeight_self (g : Graph α) (u v : α) (w : Nat) :
    edgeWeight (addEdge g u v w) u v = some w := by
  unfold edgeWeight
  rw [addEdge_edges]
  by_cases hmem : g.edges.any (matchPair u v) = true
  · rw [if_pos hmem, List.find?_map]
    have hfun : (matchPair u v ∘ fun e => if matchPair u v e then (u, v, w) else e)
        = matchPair u v := by
      funext e
      simp only [Function.comp_apply, matchPair_update_eq]
    rw [hfun]
    obtain ⟨e₀, he₀, hm₀⟩ := List.any_eq_true.mp hmem
    obtain ⟨e₁, hfind⟩ := Option.isSome_iff_exists.mp
      (List.find?_isSome.mpr ⟨e₀, he₀, hm₀⟩)
    rw [hfind]
    have hm₁ : matchPair u v e₁ = true := List.find?_some hfind
    simp only [matchPair, decide_eq_true_eq] at hm₁
    simp [matchPair, hm₁.1, hm₁.2]
  · rw [if_neg hmem, List.find?_append]
    have hnone : g.edges.find? (matchPair u v) = none := by
      rw [List.find?_eq_none]
      intro e he
      exact fun hm => hmem (List.any_eq_true.mpr ⟨e, he, hm⟩)
    rw [hnone]
    simp [List.find?, matchPair_self]

theorem addEdge_edgeWeight_other (g : Graph α) (u v u' v' : α) (w : Nat)
    (h : ¬(u = u' ∧ v = v')) :
    edgeWeight (addEdge g u v w) u' v' = edgeWeight g u' v' := by
  unfold edgeWeight
  rw [addEdge_edges]
  by_cases hmem : g.edges.any (matchPair u v) = true
  · rw [if_pos hmem, List.find?_map]
    have hfun : (matchPair u' v' ∘ fun e => if matchPair u v e then (u, v, w) else e)
        = matchPair u' v' := by
      funext e
      simp only [Function.comp_apply, matchPair_update_eq]
    rw [hfun]
    cases hfind : g.edges.find? (matchPair u' v') with
    | none => rfl
    | some e₁ =>
      have hm₁ : matchPair u' v' e₁ = true := List.find?_some hfind
      have hne : matchPair u v e₁ = false := by
        simp only [matchPair, decide_eq_true_eq] at hm₁
        simp only [matchPair, decide_eq_false_iff_not]
        rintro ⟨h1, h2⟩
        exact h ⟨h1 ▸ hm₁.1 ▸ rfl, h2 ▸ hm₁.2 ▸ rfl⟩
      simp [hne]
  · rw [if_neg hmem, List.find?_append]
    have : matchPair u' v' (u, v, w) = false := by
      simp only [matchPair, decide_eq_false_iff_not]
      rintro ⟨rfl, rfl⟩
      exact h ⟨rfl, rfl⟩
    simp [List.find?, this]

/-! ### The graph built by the folds of viz.py lines 37-39 / 170-172 -/

theorem buildGraphPG_append (es : List (ProductionEdge α)) (pe : ProductionEdge α) :
    buildGraphPG (es ++ [pe]) =
      addEdge (buildGraphPG es) pe.catalyst pe.product pe.count := by
  unfold buildGraphPG
  rw [List.foldl_append]
  rfl

/-- Each ordered pair occurring in the input occurs exactly once among the
built graph's edges; a pair not occurring in the input does not occur at
all. -/
theorem buildGraphPG_countP (es : List (ProductionEdge α)) (u v : α) :
    (buildGraphPG es).edges.countP (matchPair u v) =
      if es.any (matchPE u v) then 1 else 0 := by
  induction es using List.reverseRecOn with
  | nil => rfl
  | append_singleton es pe ih =>
    rw [buildGraphPG_append, addEdge_countP]
    by_cases hp : pe.catalyst = u ∧ pe.product = v
    · rw [if_pos hp]
      have hpe : matchPE u v pe = true := by simp [matchPE, hp.1, hp.2]
      have hany : (es ++ [pe]).any (matchPE u v) = true := by
        simp [List.any_append, hpe]
      rw [hany, if_pos rfl]
      by_cases hb : es.any (matchPE u v) = true
      · have hcount : (buildGraphPG es).edges.countP (matchPair u v) = 1 := by
          rw [ih, if_pos hb]
        have hhas : hasEdge (buildGraphPG es) pe.catalyst pe.product = true := by
          rw [hp.1, hp.2, hasEdge, List.any_eq_true]
          obtain ⟨e, he, hm⟩ := List.countP_pos_iff.mp
            (by rw [hcount]; exact Nat.one_pos)
          exact ⟨e, he, hm⟩
        rw [if_pos hhas, hcount]
      · have hcount : (buildGraphPG es).edges.countP (matchPair u v) = 0 := by
          rw [ih, if_neg hb]
        have hhas : ¬hasEdge (buildGraphPG es) pe.catalyst pe.product = true := by
          rw [hp.1, hp.2, hasEdge, List.any_eq_true]
          rintro ⟨e, he, hm⟩
          exact (List.countP_eq_zero.mp hcount e he) hm
        rw [if_neg hhas, hcount]
    · rw [if_neg hp, ih]
      have hpe : matchPE u v pe = false := by
        simp only [matchPE, decide_eq_false_iff_not]
        exact hp
      simp [List.any_append, hpe]

theorem hasEdge_buildGraphPG (es : List (ProductionEdge α)) (u v : α) :
    hasEdge (buildGraphPG es) u v = es.any (matchPE u v) := by
  have hcount := buildGraphPG_countP es u v
  cases hb : es.any (matchPE u v) with
  | false =>
    rw [hb, if_neg (by simp)] at hcount
    rw [hasEdge, List.any_eq_false]
    exact List.countP_eq_zero.mp hcount
  | true =>
    rw [hb, if_pos rfl] at hcount
    rw [hasEdge, List.any_eq_true]
    obtain ⟨e, he, hm⟩ := List.countP_pos_iff.mp
      (by rw [hcount]; exact Nat.one_pos)
    exact ⟨e, he, hm⟩

/-- Last-write-wins: the stored weight of `u→v` is the `count` of the last
input record with that ordered pair. -/
theorem buildGraphPG_edgeWeight (es : List (ProductionEdge α)) (u v : α) :
    edgeWeight (buildGraphPG es) u v =
      ((es.filter (matchPE u v)).map (fun pe => pe.count)).getLast? := by
  induction es using List.reverseRecOn with
  | nil => rfl
  | append_singleton es pe ih =>
    rw [buildGraphPG_append]
    by_cases hp : pe.catalyst = u ∧ pe.product = v
    · have hpe : matchPE u v pe = true := by simp [matchPE, hp.1, hp.2]
      rw [hp.1, hp.2, addEdge_edgeWeight_self]
      rw [List.filter_append, List.filter_cons, hpe]
      simp [List.getLast?_concat]
    · have hpe : matchPE u v pe = false := by
        simp only [matchPE, decide_eq_false_iff_not]
        exact hp
      rw [addEdge_edgeWeight_other _ _ _ _ _ _ (fun hc => hp ⟨hc.1, hc.2⟩), ih]
      rw [List.filter_append, List.filter_cons, hpe]
      simp

theorem addEdge_edgesNodesOk (g : Graph α) (u v : α) (w : Nat)
    (h : edgesNodesOk g) : edgesNodesOk (addEdge g u v w) := by
  intro e he
  have hu : u ∈ (addEdge g u v w).nodes := by
    rw [addEdge_mem_nodes_iff]; tauto
  have hv : v ∈ (addEdge g u v w).nodes := by
    rw [addEdge_mem_nodes_iff]; tauto
  have hmono : ∀ n, n ∈ g.nodes → n ∈ (addEdge g u v w).nodes := fun n hn =>
    (addEdge_mem_nodes_iff g u v w n).mpr (Or.inl hn)
  rw [addEdge_edges] at he
  by_cases hc : g.edges.any (matchPair u v) = true
  · rw [if_pos hc] at he
    obtain ⟨e', he', rfl⟩ := List.mem_map.mp he
    by_cases hm : matchPair u v e' = true
    · simp only [if_pos hm]
      exact ⟨hu, hv⟩
    · simp only [Bool.not_eq_true] at hm
      simp only [hm, Bool.false_eq_true, if_false]
      obtain ⟨h1, h2⟩ := h e' he'
      exact ⟨hmono _ h1, hmono _ h2⟩
  · rw [if_neg hc] at he
    rcases List.mem_append.mp he with he' | he'
    · obtain ⟨h1, h2⟩ := h e he'
      exact ⟨hmono _ h1, hmono _ h2⟩
    · rcases List.mem_singleton.mp he' with rfl
      exact ⟨hu, hv⟩

theorem addEdge_nodesEdgeOk (g : Graph α) (u v : α) (w : Nat)
    (h : nodesEdgeOk g) : nodesEdgeOk (addEdge g u v w) := by
  have hedge : ∃ e ∈ (addEdge g u v w).edges, e.1 = u ∧ e.2.1 = v := by
    rw [addEdge_edges]
    by_cases hc : g.edges.any (matchPair u v) = true
    · rw [if_pos hc]
      obtain ⟨e₀, he₀, hm₀⟩ := List.any_eq_true.mp hc
      exact ⟨(u, v, w), List.mem_map.mpr ⟨e₀, he₀, by simp [hm₀]⟩, rfl, rfl⟩
    · rw [if_neg hc]
      exact ⟨(u, v, w), List.mem_append_right _ (List.mem_singleton.mpr rfl),
        rfl, rfl⟩
  intro n hn
  rw [addEdge_mem_nodes_iff] at hn
  rcases hn with hn | rfl | rfl
  · obtain ⟨e, he, hor⟩ := h n hn
    rw [addEdge_edges]
    by_cases hc : g.edges.any (matchPair u v) = true
    · rw [if_pos hc]
      refine ⟨(if matchPair u v e then (u, v, w) else e),
        List.mem_map.mpr ⟨e, he, rfl⟩, ?_⟩
      by_cases hm : matchPair u v e = true
      · simp only [if_pos hm]
        simp only [matchPair, decide_eq_true_eq] at hm
        rcases hor with h1 | h1
        · exact Or.inl (hm.1 ▸ h1)
        · exact Or.inr (hm.2 ▸ h1)
      · simp only [Bool.not_eq_true] at hm
        simp only [hm, Bool.false_eq_true, if_false]
        exact hor
    · rw [if_neg hc]
      exact ⟨e, List.mem_append_left _ he, hor⟩
  · obtain ⟨e, he, h1, _⟩ := hedge
    exact ⟨e, he, Or.inl h1⟩
  · obtain ⟨e, he, _, h2⟩ := hedge
    exact ⟨e, he, Or.inr h2⟩

theorem buildGraphPG_edgesNodesOk (es : List (ProductionEdge α)) :
    edgesNodesOk (buildGraphPG es) := by
  induction es using List.reverseRecOn with
  | nil => intro e he; cases he
  | append_singleton es pe ih =>
    rw [buildGraphPG_append]
    exact addEdge_edgesNodesOk _ _ _ _ ih

theorem buildGraphPG_nodesEdgeOk (es : List (ProductionEdge α)) :
    nodesEdgeOk (buildGraphPG es) := by
  induction es using List.reverseRecOn with
  | nil => intro n hn; cases hn
  | append_singleton es pe ih =>
    rw [buildGraphPG_append]
    exact addEdge_nodesEdgeOk _ _ _ _ ih

/-! ### Degree maxima -/

theorem init_le_foldl_max (l : List Nat) (b : Nat) : b ≤ l.foldl max b := by
  induction l generalizing b with
  | nil => exact le_refl b
  | cons x xs ih =>
    exact le_trans (le_max_left b x) (ih (max b x))

theorem mem_le_foldl_max (l : List Nat) (b a : Nat) (h : a ∈ l) :
    a ≤ l.foldl max b := by
  induction l generalizing b with
  | nil => cases h
  | cons x xs ih =>
    rcases List.mem_cons.mp h with rfl | h
    · exact le_trans (le_max_right b a) (init_le_foldl_max xs (max b a))
    · exact ih _ h

theorem buildGraphPG_nodes_ne_nil (es : List (ProductionEdge α)) (h : es ≠ []) :
    (buildGraphPG es).nodes ≠ [] := by
  obtain ⟨pe, hpe⟩ := List.exists_mem_of_ne_nil es h
  have hhas : hasEdge (buildGraphPG es) pe.catalyst pe.product = true := by
    rw [hasEdge_buildGraphPG, List.any_eq_true]
    exact ⟨pe, hpe, by simp [matchPE]⟩
  obtain ⟨e, he, _⟩ := List.any_eq_true.mp hhas
  exact List.ne_nil_of_mem (buildGraphPG_edgesNodesOk es e he).1

theorem one_le_raw_max_totalDegree (es : List (ProductionEdge α))
    (h : (buildGraphPG es).nodes ≠ []) :
    1 ≤ ((buildGraphPG es).nodes.map (totalDegree (buildGraphPG es))).foldl max 0 := by
  obtain ⟨n, hn⟩ := List.exists_mem_of_ne_nil _ h
  obtain ⟨e, he, hor⟩ := buildGraphPG_nodesEdgeOk es n hn
  have hdeg : 1 ≤ totalDegree (buildGraphPG es) n := by
    rcases hor with h1 | h1
    · have hmem : e ∈ (buildGraphPG es).edges.filter (fun e' => decide (e'.1 = n)) :=
        List.mem_filter.mpr ⟨he, by simp [h1]⟩
      have := List.length_pos_of_mem hmem
      unfold totalDegree outDegree
      omega
    · have hmem : e ∈ (buildGraphPG es).edges.filter (fun e' => decide (e'.2.1 = n)) :=
        List.mem_filter.mpr ⟨he, by simp [h1]⟩
      have := List.length_pos_of_mem hmem
      unfold totalDegree inDegree
      omega
  exact le_trans hdeg (mem_le_foldl_max _ 0 _ (List.mem_map_of_mem _ hn))

theorem one_le_raw_max_inDegree (es : List (ProductionEdge α))
    (h : (buildGraphPG es).nodes ≠ []) :
    1 ≤ ((buildGraphPG es).nodes.map (inDegree (buildGraphPG es))).foldl max 0 := by
  obtain ⟨n, hn⟩ := List.exists_mem_of_ne_nil _ h
  obtain ⟨e, he, _⟩ := buildGraphPG_nodesEdgeOk es n hn
  have ht : e.2.1 ∈ (buildGraphPG es).nodes := (buildGraphPG_edgesNodesOk es e he).2
  have hdeg : 1 ≤ inDegree (buildGraphPG es) e.2.1 := by
    have hmem : e ∈ (buildGraphPG es).edges.filter (fun e' => decide (e'.2.1 = e.2.1)) :=
      List.mem_filter.mpr ⟨he, by simp⟩
    have := List.length_pos_of_mem hmem
    unfold inDegree
    omega
  exact le_trans hdeg (mem_le_foldl_max _ 0 _ (List.mem_map_of_mem _ ht))

theorem maxTotalDegree_buildGraphPG_pos (es : List (ProductionEdge α)) :
    0 < maxTotalDegree (buildGraphPG es) := by
  by_cases h : (buildGraphPG es).nodes.isEmpty = true
  · rw [maxTotalDegree, if_pos h]
    exact Nat.one_pos
  · rw [maxTotalDegree, if_neg h]
    exact one_le_raw_max_totalDegree es (by simpa [List.isEmpty_iff] using h)

theorem maxInDegree_buildGraphPG_pos (es : List (ProductionEdge α)) :
    0 < maxInDegree (buildGraphPG es) := by
  by_cases h : (buildGraphPG es).nodes.isEmpty = true
  · rw [maxInDegree, if_pos h]
    exact Nat.one_pos
  · rw [maxInDegree, if_neg h]
    exact one_le_raw_max_inDegree es (by simpa [List.isEmpty_iff] using h)

/-! ### Claim theorems -/

/-- C10: the directed weighted graph constructed inside
`render_production_graph` and the one constructed independently inside
`render_cycle_analysis` are equal on every input edge sequence: same node
list, same edge list, same weight on every edge. -/
theorem claim_C10_graphs_equal (es : List (ProductionEdge α)) :
    buildGraphPG es = buildGraphCA es := rfl

/-- C2: when the same ordered (catalyst, product) pair appears more than
once in the input edge sequence, the built graph contains exactly one edge
for that pair, and its weight is the `count` of the last occurrence
(last-write-wins, not a sum). -/
theorem claim_C2_last_write_wins (es : List (ProductionEdge α)) (u v : α)
    (h : 2 ≤ (es.filter (matchPE u v)).length) :
    (buildGraphPG es).edges.countP (matchPair u v) = 1 ∧
    edgeWeight (buildGraphPG es) u v =
      ((es.filter (matchPE u v)).map (fun pe => pe.count)).getLast? := by
  refine ⟨?_, buildGraphPG_edgeWeight es u v⟩
  rw [buildGraphPG_countP]
  have hany : es.any (matchPE u v) = true := by
    rcases hx : es.filter (matchPE u v) with _ | ⟨pe, rest⟩
    · rw [hx] at h
      simp at h
    · have hpe : pe ∈ es.filter (matchPE u v) := by
        rw [hx]
        exact List.mem_cons_self pe rest
      have hm := List.mem_filter.mp hpe
      exact List.any_eq_true.mpr ⟨pe, hm.1, hm.2⟩
  rw [hany, if_pos rfl]

/-- Witness for C2 at the spec's own example: building from
`[(A,B,3), (A,B,7)]` yields exactly one `A→B` edge and its weight is 7. -/
theorem claim_C2_witness :
    2 ≤ (exC2.filter (matchPE "A" "B")).length ∧
    (buildGraphPG exC2).edges.countP (matchPair "A" "B") = 1 ∧
    edgeWeight (buildGraphPG exC2) "A" "B" = some 7 := by
  have h2 : 2 ≤ (exC2.filter (matchPE "A" "B")).length := by decide
  have h := claim_C2_last_write_wins exC2 "A" "B" h2
  refine ⟨h2, h.1, ?_⟩
  rw [h.2]
  decide

/-- C3 as stated is false on the code: the loop appends `(u, v)` for every
directed edge whose reverse exists. On the input with edges `A→B`, `B→A`
and the self-loop `C→C`, the mutual output contains the unordered pair
`{A,B}` twice (once per direction) and contains the self-loop entry
`(C,C)`. -/
theorem claim_C3_counterexample :
    (mutualEdges (buildGraphPG exC3Edges)).countP
        (fun p => decide (p = ("A", "B") ∨ p = ("B", "A"))) = 2 ∧
    ("C", "C") ∈ mutualEdges (buildGraphPG exC3Edges) := by decide

/-- C3 amended: the mutual output contains one entry per directed edge
`u→v` whose reverse edge exists; hence for `u ≠ v` with both directions
present, the unordered pair `{u,v}` appears exactly twice — once as
`(u,v)` and once as `(v,u)` — and a self-loop `u→u` contributes the entry
`(u,u)`. -/
theorem claim_C3_mutual_entries (es : List (ProductionEdge α)) (u v : α)
    (huv : hasEdge (buildGraphPG es) u v = true)
    (hvu : hasEdge (buildGraphPG es) v u = true) :
    (mutualEdges (buildGraphPG es)).countP (fun p => decide (p = (u, v))) = 1 ∧
    (mutualEdges (buildGraphPG es)).countP (fun p => decide (p = (v, u))) = 1 ∧
    ∀ s, hasEdge (buildGraphPG es) s s = true →
      (s, s) ∈ mutualEdges (buildGraphPG es) := by
  have key : ∀ a b : α, hasEdge (buildGraphPG es) a b = true →
      hasEdge (buildGraphPG es) b a = true →
      (mutualEdges (buildGraphPG es)).countP (fun p => decide (p = (a, b))) = 1 := by
    intro a b hab hba
    rw [mutualEdges, List.countP_filter, List.countP_map]
    have hcongr : ∀ e ∈ (buildGraphPG es).edges,
        ((fun p => decide (p = (a, b)) && hasEdge (buildGraphPG es) p.2 p.1) ∘
          (fun e : α × α × Nat => (e.1, e.2.1))) e = true ↔ matchPair a b e = true := by
      intro e _
      simp only [Function.comp_apply, Bool.and_eq_true, decide_eq_true_eq,
        Prod.mk.injEq, matchPair]
      constructor
      · exact fun hm => hm.1
      · intro hm
        refine ⟨hm, ?_⟩
        rw [hm.1, hm.2]
        exact hba
    rw [List.countP_congr hcongr, buildGraphPG_countP]
    rw [hasEdge_buildGraphPG] at hab
    rw [hab, if_pos rfl]
  refine ⟨key u v huv hvu, key v u hvu huv, ?_⟩
  intro s hss
  rw [mutualEdges, List.mem_filter]
  obtain ⟨e, he, hm⟩ := List.any_eq_true.mp hss
  have hm' := of_decide_eq_true hm
  constructor
  · exact List.mem_map.mpr ⟨e, he, by rw [hm'.1, hm'.2]⟩
  · exact hss

/-- Witness for the amended C3: on the edges `A→B`, `B→A`, `C→C` the mutual
output lists `(A,B)` once, `(B,A)` once, and contains `(C,C)`. -/
theorem claim_C3_witness :
    hasEdge (buildGraphPG exC3Edges) "A" "B" = true ∧
    hasEdge (buildGraphPG exC3Edges) "B" "A" = true ∧
    hasEdge (buildGraphPG exC3Edges) "C" "C" = true ∧
    (mutualEdges (buildGraphPG exC3Edges)).countP
      (fun p => decide (p = ("A", "B"))) = 1 ∧
    (mutualEdges (buildGraphPG exC3Edges)).countP
      (fun p => decide (p = ("B", "A"))) = 1 ∧
    ("C", "C") ∈ mutualEdges (buildGraphPG exC3Edges) := by
  have hab : hasEdge (buildGraphPG exC3Edges) "A" "B" = true := by decide
  have hba : hasEdge (buildGraphPG exC3Edges) "B" "A" = true := by decide
  have hcc : hasEdge (buildGraphPG exC3Edges) "C" "C" = true := by decide
  have h := claim_C3_mutual_entries exC3Edges "A" "B" hab hba
  exact ⟨hab, hba, hcc, h.1, h.2.1, h.2.2 "C" hcc⟩

/-- C9: the degree-normalisation denominators are never zero: the maximum
falls back to 1 on the empty graph, and on a graph built from at least one
edge both the maximum total degree and the maximum in-degree are at least
1 (every node inserted by `add_edge` stays an endpoint of some edge). -/
theorem claim_C9_normalization_safe (es : List (ProductionEdge α)) :
    0 < maxTotalDegree (buildGraphPG es) ∧
    0 < maxInDegree (buildGraphPG es) ∧
    maxTotalDegree (buildGraphPG ([] : List (ProductionEdge α))) = 1 ∧
    maxInDegree (buildGraphPG ([] : List (ProductionEdge α))) = 1 ∧
    (es ≠ [] →
      1 ≤ ((buildGraphPG es).nodes.map (totalDegree (buildGraphPG es))).foldl max 0 ∧
      1 ≤ ((buildGraphPG es).nodes.map (inDegree (buildGraphPG es))).foldl max 0) := by
  refine ⟨maxTotalDegree_buildGraphPG_pos es, maxInDegree_buildGraphPG_pos es,
    rfl, rfl, fun hne => ?_⟩
  have hn := buildGraphPG_nodes_ne_nil es hne
  exact ⟨one_le_raw_max_totalDegree es hn, one_le_raw_max_inDegree es hn⟩

/-- Witness for C9 on the one-edge input `A→B`: both raw maxima are at
least 1. -/
theorem claim_C9_witness :
    ([(⟨"A", "B", 3⟩ : ProductionEdge String)] ≠ []) ∧
    1 ≤ ((buildGraphPG [(⟨"A", "B", 3⟩ : ProductionEdge String)]).nodes.map
      (totalDegree (buildGraphPG [(⟨"A", "B", 3⟩ : ProductionEdge String)]))).foldl max 0 ∧
    1 ≤ ((buildGraphPG [(⟨"A", "B", 3⟩ : ProductionEdge String)]).nodes.map
      (inDegree (buildGraphPG [(⟨"A", "B", 3⟩ : ProductionEdge String)]))).foldl max 0 := by
  have hne : [(⟨"A", "B", 3⟩ : ProductionEdge String)] ≠ [] := by decide
  have h := (claim_C9_normalization_safe
    [(⟨"A", "B", 3⟩ : ProductionEdge String)]).2.2.2.2 hne
  exact ⟨hne, h.1, h.2⟩

/-! ### Composition aggregator -/

/-- C8: with fewer than 2 snapshots the composition stage returns the
explicit skip value `none`; the embedding is a total function, so there is
no failure path. -/
theorem claim_C8_skip_few_snapshots (snapshots : List (Snapshot α))
    (order : List α) (h : snapshots.length < 2) :
    renderPoolComposition snapshots order = none := by
  rw [renderPoolComposition, if_pos h]

/-- Witness for C8: a single-snapshot input yields the skip value. -/
theorem claim_C8_witness :
    ([(⟨0, [("X", 5)], 5, 1⟩ : Snapshot String)].length < 2) ∧
    renderPoolComposition [(⟨0, [("X", 5)], 5, 1⟩ : Snapshot String)] ["X"] = none := by
  have h : ([(⟨0, [("X", 5)], 5, 1⟩ : Snapshot String)].length < 2) := by decide
  exact ⟨h, claim_C8_skip_few_snapshots _ ["X"] h⟩

/-- Unpacking of a successful composition run into its fields. -/
theorem renderPoolComposition_some (snapshots : List (Snapshot α))
    (order : List α) (b : CompositionBundle α)
    (hb : renderPoolComposition snapshots order = some b) :
    2 ≤ snapshots.length ∧
    b.topStrands = (List.insertionSort (fun a c =>
      strandMax snapshots c ≤ strandMax snapshots a) order).take 20 ∧
    b.series = b.topStrands.map (fun s => (s, snapshots.map (fun t => poolGet t s))) ∧
    b.other = snapshots.enum.map (fun p => p.2.poolSize -
      ((b.series.map (fun q => ((q.2.getD p.1 0 : Nat) : Int))).sum)) := by
  by_cases hlen : snapshots.length < 2
  · rw [renderPoolComposition, if_pos hlen] at hb
    cases hb
  · rw [renderPoolComposition, if_neg hlen] at hb
    obtain rfl := (Option.some_inj.mp hb).symm
    exact ⟨by omega, rfl, rfl, rfl⟩

/-- C6: for every snapshot index `i`, the residual series of a successful
composition run satisfies
`other[i] = poolSize_i - Σ (count of each selected strand in snapshot i)`,
an integer subtraction with no clamping (absent strands count 0). -/
theorem claim_C6_other_series (snapshots : List (Snapshot α)) (order : List α)
    (b : CompositionBundle α) (hb : renderPoolComposition snapshots order = some b)
    (i : Nat) (hi : i < snapshots.length) :
    b.other[i]? = some (snapshots[i].poolSize -
      ((b.topStrands.map (fun s => (poolGet snapshots[i] s : Int))).sum)) := by
  obtain ⟨-, -, hseries, hother⟩ := renderPoolComposition_some snapshots order b hb
  rw [hother, List.getElem?_map, List.getElem?_enum, List.getElem?_eq_getElem hi]
  simp only [Option.map_some']
  congr 1
  congr 1
  rw [hseries, List.map_map]
  have hfun : ((fun q : α × List Nat => ((q.2.getD i 0 : Nat) : Int)) ∘
      (fun s => (s, snapshots.map (fun t => poolGet t s)))) =
      fun s => (poolGet snapshots[i] s : Int) := by
    funext s
    simp only [Function.comp_apply]
    rw [List.getD_eq_getElem?_getD, List.getElem?_map, List.getElem?_eq_getElem hi]
    rfl
  rw [hfun]

/-- Witness for C6 at the spec's example: snapshots
`[{op 0, pool {X:5}, poolSize 5}, {op 1, pool {X:3, Y:2}, poolSize 5}]`
give the residual series `[0, 0]`. -/
theorem claim_C6_witness :
    renderPoolComposition exSnaps ["X", "Y"] = some exBundle ∧
    exBundle.other = [0, 0] ∧
    exBundle.other[0]? = some 0 ∧ exBundle.other[1]? = some 0 := by
  have h0 := claim_C6_other_series exSnaps ["X", "Y"] exBundle (by decide) 0 (by decide)
  have h1 := claim_C6_other_series exSnaps ["X", "Y"] exBundle (by decide) 1 (by decide)
  refine ⟨by decide, by decide, ?_, ?_⟩
  · rw [h0]
    decide
  · rw [h1]
    decide

/-- C5 as stated is false on the code: the tie-break among strands of equal
maximum count follows the incidental set-iteration order, not the
identifier ordering, and the selection is not independent of that order.
`tieSnaps` has 21 strands `0..20`, all of maximum count 1; under the
ascending iteration order strand 0 is selected, under the descending one
it is not, although both orders enumerate the same strand set. -/
theorem claim_C5_counterexample :
    validOrder tieSnaps tieOrder1 ∧ validOrder tieSnaps tieOrder2 ∧
    renderPoolComposition tieSnaps tieOrder1 = some tieBundle1 ∧
    renderPoolComposition tieSnaps tieOrder2 = some tieBundle2 ∧
    strandMax tieSnaps 0 = strandMax tieSnaps 20 ∧
    (0 ∈ tieBundle1.topStrands) ∧ (0 ∉ tieBundle2.topStrands) := by decide

/-- C5 amended: the aggregator selects `min 20 |strands|` strands whose
maximum counts dominate every unselected strand's maximum count; but ties
at the cut are resolved by the stable sort on the incidental iteration
order of the strand set, so the selected set is not in general independent
of that order and no identifier-order tie-break is applied. -/
theorem claim_C5_top_selection (snapshots : List (Snapshot α)) (order : List α)
    (b : CompositionBundle α) (hord : validOrder snapshots order)
    (hb : renderPoolComposition snapshots order = some b) :
    b.topStrands.length = min 20 (allStrandsList snapshots).length ∧
    ∀ s ∈ b.topStrands, ∀ t ∈ allStrandsList snapshots, t ∉ b.topStrands →
      strandMax snapshots t ≤ strandMax snapshots s := by
  obtain ⟨-, htop, -, -⟩ := renderPoolComposition_some snapshots order b hb
  have hperm : (List.insertionSort (fun a c =>
      strandMax snapshots c ≤ strandMax snapshots a) order).Perm order :=
    List.perm_insertionSort _ order
  constructor
  · rw [htop, List.length_take, hperm.length_eq, hord.length_eq]
  · intro s hs t ht hnt
    haveI : IsTotal α (fun a c => strandMax snapshots c ≤ strandMax snapshots a) :=
      ⟨fun a c => le_total (strandMax snapshots c) (strandMax snapshots a)⟩
    haveI : IsTrans α (fun a c => strandMax snapshots c ≤ strandMax snapshots a) :=
      ⟨fun a c d hac hcd => le_trans hcd hac⟩
    have hsorted := List.sorted_insertionSort
      (fun a c => strandMax snapshots c ≤ strandMax snapshots a) order
    have ht' : t ∈ List.insertionSort (fun a c =>
        strandMax snapshots c ≤ strandMax snapshots a) order := by
      rw [hperm.mem_iff, hord.mem_iff]
      exact ht
    have hsplit := (List.take_append_drop 20 (List.insertionSort (fun a c =>
      strandMax snapshots c ≤ strandMax snapshots a) order))
    rw [List.Sorted, ← hsplit] at hsorted
    rw [← hsplit] at ht'
    rcases List.mem_append.mp ht' with htake | hdrop
    · exact absurd (htop ▸ htake) hnt
    · exact (List.pairwise_append.mp hsorted).2.2 s (htop ▸ hs) t hdrop

/-- Witness for the amended C5 on `tieSnaps` with the ascending iteration
order: 20 of the 21 tied strands are selected, and the unselected strand 20
has maximum count at most that of the selected strand 0. -/
theorem claim_C5_witness :
    validOrder tieSnaps tieOrder1 ∧
    renderPoolComposition tieSnaps tieOrder1 = some tieBundle1 ∧
    tieBundle1.topStrands.length = min 20 (allStrandsList tieSnaps).length ∧
    (0 ∈ tieBundle1.topStrands) ∧ (20 ∈ allStrandsList tieSnaps) ∧
    (20 ∉ tieBundle1.topStrands) ∧
    strandMax tieSnaps 20 ≤ strandMax tieSnaps 0 := by
  have hord : validOrder tieSnaps tieOrder1 := by decide
  have hb : renderPoolComposition tieSnaps tieOrder1 = some tieBundle1 := by decide
  have h := claim_C5_top_selection tieSnaps tieOrder1 tieBundle1 hord hb
  exact ⟨hord, hb, h.1, by decide, by decide, by decide,
    h.2 0 (by decide) 20 (by decide) (by decide)⟩

/-- C7 as stated (byte-identical bundles on every rerun) is false: the
composition bundle depends on the iteration order of the `all_strands`
set, which CPython randomises per process. On `tieResult` the two valid
iteration orders `tieOrder1`/`tieOrder2` give different pipeline outputs. -/
theorem claim_C7_counterexample :
    validOrder tieResult.snapshots tieOrder1 ∧
    validOrder tieResult.snapshots tieOrder2 ∧
    pipeline tieResult tieOrder1 ≠ pipeline tieResult tieOrder2 := by decide

/-- C7 amended: the pipeline is deterministic given the strand-set
iteration order — it is a pure function of the simulation result and that
order — and the graph and cycle bundles do not depend on the order at all;
only the composition bundle can differ between two valid iteration
orders. -/
theorem claim_C7_determinism_given_order (r : SimulationResult α)
    (o1 o2 : List α) :
    (pipeline r o1).graph = (pipeline r o2).graph ∧
    (pipeline r o1).cycles = (pipeline r o2).cycles ∧
    (o1 = o2 → pipeline r o1 = pipeline r o2) :=
  ⟨rfl, rfl, fun h => by rw [h]⟩

/-- Witness for the amended C7 at the two concrete orders on `tieResult`:
the graph and cycle bundles agree across the orders, and with equal orders
the whole pipeline output agrees. -/
theorem claim_C7_witness :
    (pipeline tieResult tieOrder1).graph = (pipeline tieResult tieOrder2).graph ∧
    (pipeline tieResult tieOrder1).cycles = (pipeline tieResult tieOrder2).cycles ∧
    pipeline tieResult tieOrder1 = pipeline tieResult tieOrder1 := by
  have h := claim_C7_determinism_given_order tieResult tieOrder1 tieOrder2
  exact ⟨h.1, h.2.1,
    (claim_C7_determinism_given_order tieResult tieOrder1 tieOrder1).2.2 rfl⟩

/-! ### Cycle enumeration soundness -/

theorem mem_successors (g : Graph α) (u v : α) :
    v ∈ successors g u ↔ hasEdge g u v = true := by
  rw [successors, hasEdge]
  constructor
  · intro hmem
    obtain ⟨e, hef, het⟩ := List.mem_map.mp hmem
    have he := List.mem_filter.mp hef
    refine List.any_eq_true.mpr ⟨e, he.1, ?_⟩
    rw [matchPair]
    exact decide_eq_true ⟨of_decide_eq_true he.2, het⟩
  · intro h
    obtain ⟨e, he, hm⟩ := List.any_eq_true.mp h
    have hm' := of_decide_eq_true hm
    exact List.mem_map.mpr ⟨e, List.mem_filter.mpr ⟨he, decide_eq_true hm'.1⟩, hm'.2⟩

theorem chainB_append_last (g : Graph α) (l : List α) (z v : α)
    (hlast : l.getLast? = some z) :
    chainB g (l ++ [v]) = (chainB g l && hasEdge g z v) := by
  induction l with
  | nil => cases hlast
  | cons x xs ih =>
    cases xs with
    | nil =>
      have hz : z = x := by
        rw [show ([x] : List α).getLast? = some x from rfl] at hlast
        exact (Option.some_inj.mp hlast).symm
      subst hz
      simp [chainB]
    | cons y ys =>
      have hlast' : (y :: ys).getLast? = some z := by
        rw [List.getLast?_cons_cons] at hlast
        exact hlast
      have : (x :: y :: ys) ++ [v] = x :: ((y :: ys) ++ [v]) := rfl
      rw [this]
      show (hasEdge g x y && chainB g ((y :: ys) ++ [v])) = _
      rw [ih hlast']
      show _ = ((hasEdge g x y && chainB g (y :: ys)) && hasEdge g z v)
      rw [Bool.and_assoc]

theorem cycleDFS_sound (g : Graph α) (allowed : List α) (s : α) (fuel : Nat) :
    ∀ (path : List α) (u : α),
      path ≠ [] → path.head? = some u → path.getLast? = some s →
      path.Nodup → chainB g path.reverse = true →
      ∀ c ∈ cycleDFS g allowed s path u fuel,
        isCycle g c ∧ path.length ≤ c.length ∧
          c.length ≤ path.length + fuel - 1 := by
  induction fuel with
  | zero =>
    intro path u _ _ _ _ _ c hc
    simp [cycleDFS] at hc
  | succ f ih =>
    intro path u hne hhead hlast hnodup hchain c hc
    rw [cycleDFS] at hc
    obtain ⟨v, hv, hcv⟩ := List.mem_flatMap.mp hc
    have hedge_uv : hasEdge g u v = true := (mem_successors g u v).mp hv
    by_cases hvs : v = s
    · rw [if_pos hvs] at hcv
      obtain rfl := List.mem_singleton.mp hcv
      have hhr : path.reverse.head? = some s := by
        rw [List.head?_reverse]
        exact hlast
      have hlr : path.reverse.getLast? = some u := by
        rw [List.getLast?_reverse]
        exact hhead
      refine ⟨⟨hchain, ?_, List.nodup_reverse.mpr hnodup⟩, ?_, ?_⟩
      · simp only [closesB, hhr, hlr]
        exact hvs ▸ hedge_uv
      · rw [List.length_reverse]
      · rw [List.length_reverse]
        omega
    · rw [if_neg hvs] at hcv
      by_cases hmem : v ∈ allowed ∧ v ∉ path
      · rw [if_pos hmem] at hcv
        have h3 : (v :: path).getLast? = some s := by
          cases path with
          | nil => exact absurd rfl hne
          | cons p ps =>
            rw [List.getLast?_cons_cons]
            exact hlast
        have h5 : chainB g (v :: path).reverse = true := by
          rw [List.reverse_cons,
            chainB_append_last g path.reverse u v
              (by rw [List.getLast?_reverse]; exact hhead),
            hchain, hedge_uv]
          rfl
        obtain ⟨hcyc, hlo, hhi⟩ := ih (v :: path) v (List.cons_ne_nil v path) rfl
          h3 (List.nodup_cons.mpr ⟨hmem.2, hnodup⟩) h5 c hcv
        refine ⟨hcyc, ?_, ?_⟩
        · simp only [List.length_cons] at hlo
          omega
        · simp only [List.length_cons] at hhi
          omega
      · rw [if_neg hmem] at hcv
        cases hcv

theorem simpleCycles_sound (g : Graph α) (bound : Nat) :
    ∀ c ∈ simpleCycles g bound,
      isCycle g c ∧ 1 ≤ c.length ∧ c.length ≤ bound := by
  rw [simpleCycles]
  generalize g.nodes = starts
  induction starts with
  | nil =>
    intro c hc
    cases hc
  | cons s rest ih =>
    intro c hc
    rw [cyclesFromStarts] at hc
    rcases List.mem_append.mp hc with h | h
    · obtain ⟨hcyc, hlo, hhi⟩ := cycleDFS_sound g (s :: rest) s bound [s] s
        (by simp) rfl rfl (List.nodup_singleton s) rfl c h
      simp only [List.length_singleton] at hlo hhi
      exact ⟨hcyc, hlo, by omega⟩
    · exact ih c h

theorem foundCycles_sound (g : Graph α) :
    ∀ p ∈ foundCycles g,
      isCycle g p.1 ∧ 2 ≤ p.1.length ∧ p.1.length ≤ 4 ∧
        p.2 = cycleTotalWeight g p.1 := by
  intro p hp
  rw [foundCycles] at hp
  obtain ⟨c, hc, hpc⟩ := List.mem_filterMap.mp hp
  by_cases h2 : 2 ≤ c.length
  · rw [if_pos h2] at hpc
    obtain rfl := (Option.some_inj.mp hpc).symm
    obtain ⟨hcyc, -, hhi⟩ := simpleCycles_sound g 4 c hc
    exact ⟨hcyc, h2, hhi, rfl⟩
  · rw [if_neg h2] at hpc
    cases hpc

theorem rotateLeft_one_cons_cons (a b : α) (r : List α) :
    (a :: b :: r).rotateLeft 1 = (b :: r) ++ [a] := by
  have hlen : (a :: b :: r).length = r.length + 2 := by simp
  rw [List.rotateLeft]
  simp only [hlen]
  rw [if_neg (by omega)]
  have h2 : 1 % (r.length + 2) = 1 := Nat.mod_eq_of_lt (by omega)
  rw [h2]
  rfl

theorem zip_append_last_weights (g : Graph α) (first : α) :
    ∀ (t : List α) (x : α),
      ((List.zip (x :: t) (t ++ [first])).map (fun p => weightD g p.1 p.2)).sum
        = consecWeights g first (x :: t) := by
  intro t
  induction t with
  | nil =>
    intro x
    simp [consecWeights]
  | cons y r ih =>
    intro x
    simp only [List.cons_append, List.zip_cons_cons, List.map_cons, List.sum_cons]
    rw [ih y]
    rfl

/-- The index-and-wrap weight loop of the code equals the spec's phrasing
of the total weight: the sum over consecutive edges plus the closing
edge. -/
theorem cycleTotalWeight_eq_spec (g : Graph α) (c : List α) :
    cycleTotalWeight g c = cycleWeightSpec g c := by
  cases c with
  | nil => rfl
  | cons a t =>
    cases t with
    | nil => simp [cycleTotalWeight, List.rotateLeft, cycleWeightSpec, consecWeights]
    | cons b r =>
      rw [cycleTotalWeight, rotateLeft_one_cons_cons, zip_append_last_weights g a (b :: r) a]
      rfl

/-- C1: every entry of the cycle enumerator's ranked output is a simple
directed cycle of the graph (all consecutive edges exist, the closing edge
exists, no node repeats) of length between 2 and 4, and its recorded
totalWeight is the sum of the graph edge weights of every consecutive edge
including the closing edge; on the 3-node ring `A→B→C→A` with weights
1,2,3 the enumerator returns exactly one cycle, of length 3, with
totalWeight 6. -/
theorem claim_C1_cycle_entries (es : List (ProductionEdge α)) :
    (∀ p ∈ (cycleAnalysis es).ranked,
      isCycle (buildGraphCA es) p.1 ∧ 2 ≤ p.1.length ∧ p.1.length ≤ 4 ∧
        p.2 = cycleWeightSpec (buildGraphCA es) p.1) ∧
    (cycleAnalysis ringEdges).ranked.map (fun p => (p.1.length, p.2)) = [(3, 6)] ∧
    (cycleAnalysis ringEdges).foundCount = 1 := by
  refine ⟨?_, by decide, by decide⟩
  intro p hp
  have hp' : p ∈ foundCycles (buildGraphCA es) :=
    (List.perm_insertionSort (fun p q : List α × Nat => q.2 ≤ p.2)
      (foundCycles (buildGraphCA es))).mem_iff.mp hp
  obtain ⟨hcyc, h2, h4, hw⟩ := foundCycles_sound (buildGraphCA es) p hp'
  exact ⟨hcyc, h2, h4, by rw [hw, cycleTotalWeight_eq_spec]⟩

/-- Witness for C1 at the ring: the single entry `(["A","B","C"], 6)` is in
the ranked output and satisfies all the claimed properties. -/
theorem claim_C1_witness :
    (["A", "B", "C"], 6) ∈ (cycleAnalysis ringEdges).ranked ∧
    isCycle (buildGraphCA ringEdges) ["A", "B", "C"] ∧
    (2 ≤ 3 ∧ 3 ≤ 4) ∧
    6 = cycleWeightSpec (buildGraphCA ringEdges) ["A", "B", "C"] := by
  have hmem : (["A", "B", "C"], 6) ∈ (cycleAnalysis ringEdges).ranked := by decide
  have h := (claim_C1_cycle_entries ringEdges).1 _ hmem
  exact ⟨hmem, h.1, ⟨by omega, h.2.2.1⟩, h.2.2.2⟩

set_option maxRecDepth 10000 in
/-- C4: the ranked output is sorted descending by totalWeight, the detailed
table is the top-20 slice of it, and the found-count reported separately is
the full number of cycles found; on the 21-two-cycle star the full count 21
is reported while only 20 entries are detailed. -/
theorem claim_C4_ranking (es : List (ProductionEdge α)) :
    List.Pairwise (fun p q : List α × Nat => q.2 ≤ p.2) (cycleAnalysis es).ranked ∧
    (cycleAnalysis es).top = (cycleAnalysis es).ranked.take 20 ∧
    (cycleAnalysis es).foundCount = (cycleAnalysis es).ranked.length ∧
    (cycleAnalysis starEdges).foundCount = 21 ∧
    (cycleAnalysis starEdges).top.length = 20 := by
  refine ⟨?_, rfl, rfl, by decide, by decide⟩
  haveI : IsTotal (List α × Nat) (fun p q => q.2 ≤ p.2) :=
    ⟨fun p q => le_total q.2 p.2⟩
  haveI : IsTrans (List α × Nat) (fun p q => q.2 ≤ p.2) :=
    ⟨fun p q r h1 h2 => le_trans h2 h1⟩
  exact List.sorted_insertionSort _ _

end Viz
